import Mathlib

/-!
Verification development for a status-feed watcher (`status_tracker.py`).

The program polls an Atom feed, deduplicates entries by an identity key,
classifies entries against an ordered pattern table, and prints notifications.
Strings are modelled as `List Char`; Python `re.sub` calls in `strip_html` are
translated as recursive scanners with the exact semantics of the three fixed
patterns used by the source; the HTTP response and the XML parse result are
external capabilities, supplied as inputs to the cycle functions.  Whitespace
is modelled by the ASCII whitespace set (the characters relevant to every
claim); lowercasing uses ASCII `Char.toLower`, matching the ASCII pattern
table of the source.  The scanners recurse on a fuel argument initialised to
the list length (always sufficient, see the unfolding lemmas) so that every
definition reduces in the kernel.
-/

/-- Convert a string literal to the `List Char` representation used throughout. -/
def s2l (s : String) : List Char := s.data

/-- ASCII whitespace, the model of Python's whitespace class used by
`\s` and `str.strip()` in the source. -/
def isSpaceChar (c : Char) : Bool :=
  c = ' ' || c = '\t' || c = '\n' || c = '\r' || c = '\x0b' || c = '\x0c'

/-- Python's `a or b` on strings: `a` if non-empty, else `b`. -/
def pyOr (a b : List Char) : List Char :=
  if a = [] then b else a

/-- Scanner for the tail of the regex `<[^>]+>`: consume up to and including
the first `>` of the list; `none` when the list holds no `>`. -/
def tagRest : List Char → Option (List Char)
  | [] => none
  | c :: cs => if c = '>' then some cs else tagRest cs

/-- Match of the regex `<[^>]+>` right after its opening `<`: at least one
non-`>` character followed by `>`; returns the remainder after the match. -/
def tagMatch : List Char → Option (List Char)
  | [] => none
  | c :: cs => if c = '>' then none else tagRest cs

/-- Fuel-indexed scanner for `re.sub(r"<[^>]+>", " ", text)`. -/
def stripTagsF : Nat → List Char → List Char
  | _, [] => []
  | 0, c :: cs => c :: cs
  | fuel + 1, c :: cs =>
    if c = '<' then
      match tagMatch cs with
      | some rest => ' ' :: stripTagsF fuel rest
      | none => '<' :: stripTagsF fuel cs
    else c :: stripTagsF fuel cs

/-- `re.sub(r"<[^>]+>", " ", text)`: replace every match of the tag regex,
scanning left to right, with a single space. -/
def stripTags (l : List Char) : List Char := stripTagsF l.length l

/-- The literal `&nbsp;` as a character list. -/
def nbspL : List Char := ['&', 'n', 'b', 's', 'p', ';']

/-- Fuel-indexed scanner for `re.sub(r"&nbsp;", " ", text)`. -/
def stripNbspF : Nat → List Char → List Char
  | _, [] => []
  | 0, c :: cs => c :: cs
  | fuel + 1, c :: cs =>
    if c :: cs.take 5 = nbspL then ' ' :: stripNbspF fuel (cs.drop 5)
    else c :: stripNbspF fuel cs

/-- `re.sub(r"&nbsp;", " ", text)`: replace every occurrence of the literal
`&nbsp;`, scanning left to right, with a single space. -/
def stripNbsp (l : List Char) : List Char := stripNbspF l.length l

/-- Fuel-indexed scanner for `re.sub(r"\s+", " ", text)`. -/
def collapseWsF : Nat → List Char → List Char
  | _, [] => []
  | 0, c :: cs => c :: cs
  | fuel + 1, c :: cs =>
    if isSpaceChar c then ' ' :: collapseWsF fuel (cs.dropWhile isSpaceChar)
    else c :: collapseWsF fuel cs

/-- `re.sub(r"\s+", " ", text)`: replace every maximal whitespace run,
scanning left to right, with a single space. -/
def collapseWs (l : List Char) : List Char := collapseWsF l.length l

/-- Python `str.strip()`: drop whitespace from both ends. -/
def pyStrip (l : List Char) : List Char :=
  ((l.dropWhile isSpaceChar).reverse.dropWhile isSpaceChar).reverse

/-- `strip_html` (status_tracker.py lines 30-34): strip tags, replace
`&nbsp;`, collapse whitespace, trim. -/
def strip_html (text : List Char) : List Char :=
  pyStrip (collapseWs (stripNbsp (stripTags text)))

/-- Python `str.lower()`, restricted to the ASCII case mapping. -/
def lowerStr (l : List Char) : List Char := l.map Char.toLower

/-- `needle` is a prefix of `hay` (first argument is the haystack). -/
def startsWithL : List Char → List Char → Bool
  | _, [] => true
  | [], _ :: _ => false
  | c :: cs, d :: ds => c = d && startsWithL cs ds

/-- Python `needle in hay` substring test. -/
def containsSub : List Char → List Char → Bool
  | [], needle => startsWithL [] needle
  | c :: t, needle => startsWithL (c :: t) needle || containsSub t needle

/-- The ordered pattern table `PRODUCT_PATTERNS` (lines 14-27). -/
def PRODUCT_PATTERNS : List (List Char × List Char) :=
  [ (s2l "chat/completions", s2l "OpenAI API - Chat Completions"),
    (s2l "chat completions", s2l "OpenAI API - Chat Completions"),
    (s2l "responses api", s2l "OpenAI API - Responses"),
    (s2l "assistants api", s2l "OpenAI API - Assistants"),
    (s2l "realtime api", s2l "OpenAI API - Realtime"),
    (s2l "files api", s2l "OpenAI API - Files"),
    (s2l "file api", s2l "OpenAI API - Files"),
    (s2l "embeddings api", s2l "OpenAI API - Embeddings"),
    (s2l "embeddings", s2l "OpenAI API - Embeddings"),
    (s2l "fine-tuning api", s2l "OpenAI API - Fine-tuning"),
    (s2l "fine tuning api", s2l "OpenAI API - Fine-tuning"),
    (s2l "openai api", s2l "OpenAI API") ]

/-- The `for needle, product_label in PRODUCT_PATTERNS` scan (lines 42-44):
first pair whose needle occurs in the haystack wins. -/
def findLabel (hay : List Char) : List (List Char × List Char) → Option (List Char)
  | [] => none
  | (needle, lab) :: rest =>
    if containsSub hay needle then some lab else findLabel hay rest

/-- `detect_product_and_message` (lines 37-49). -/
def detect_product_and_message (title body : List Char) :
    Option (List Char × List Char) :=
  let full_text := lowerStr (title ++ ' ' :: body)
  match findLabel full_text PRODUCT_PATTERNS with
  | some lab => some (lab, pyOr (pyStrip body) (pyStrip title))
  | none =>
    if containsSub full_text (s2l "api") then
      some (s2l "OpenAI API", pyOr (pyStrip body) (pyStrip title))
    else none

/-- One item of the status feed (`FeedEntry` of the spec; fields read in
`_check_once`, lines 102-119).  Absent XML elements are the empty string,
matching `findtext(..., default="")`. -/
structure FeedEntry where
  id : List Char
  updated : List Char
  title : List Char
  summary : List Char
  content : List Char
deriving DecidableEq

/-- Identity-key derivation of `_check_once` (lines 104-107):
`key = f"{entry_id}|{updated}"`, overwritten by `entry_id or updated or ""`
when either field is empty. -/
def entryKey (e : FeedEntry) : List Char :=
  if e.id = [] ∨ e.updated = [] then pyOr e.id (pyOr e.updated [])
  else e.id ++ '|' :: e.updated

/-- Lines 117-126 for one deduplicated entry: build the body
(`summary or content or title or ""`), normalise it, classify, and print
when `if product and message:` holds (both strings truthy). -/
def entryEvent (e : FeedEntry) : List (List Char × List Char) :=
  let body_clean := strip_html (pyOr (pyOr e.summary e.content) e.title)
  match detect_product_and_message e.title body_clean with
  | some (p, m) => if p = [] ∨ m = [] then [] else [(p, m)]
  | none => []

/-- Result of the entry loop of `_check_once`: entries that passed
deduplication, the updated seen-key set, the printed events, and the
`changed` flag. -/
structure ProcResult where
  kept : List FeedEntry
  seen : Finset (List Char)
  events : List (List Char × List Char)
  changed : Bool
deriving DecidableEq

/-- The `for entry in entries` loop of `_check_once` (lines 101-126),
applied to entries already in chronological order (the caller reverses the
feed first, line 99). -/
def processChron : List FeedEntry → Finset (List Char) → ProcResult
  | [], seen => ⟨[], seen, [], false⟩
  | e :: rest, seen =>
    if entryKey e ∈ seen then processChron rest seen
    else
      let r := processChron rest (insert (entryKey e) seen)
      ⟨e :: r.kept, r.seen, entryEvent e ++ r.events, true⟩

/-- Several successive poll cycles at the dedup level: each cycle receives
its feed batch in native (newest-first) order, reverses it (line 99) and
runs the entry loop; the seen-key set is threaded through.  Returns the
kept entries of each cycle and the final seen-key set. -/
def runCycles : List (List FeedEntry) → Finset (List Char) →
    List (List FeedEntry) × Finset (List Char)
  | [], seen => ([], seen)
  | feed :: rest, seen =>
    let p := processChron feed.reverse seen
    let r := runCycles rest p.seen
    (p.kept :: r.1, r.2)

/-- The watcher's mutable state (`self.etag`, `self.last_modified`,
`self.seen_keys`, lines 58-60). -/
structure WatcherState where
  etag : Option (List Char)
  lastModified : Option (List Char)
  seenKeys : Finset (List Char)
deriving DecidableEq

/-- An HTTP response as the fetcher observes it: status, the two validator
headers (absent = `none`), and the body text. -/
structure HttpResponse where
  status : Nat
  etag : Option (List Char)
  lastModified : Option (List Char)
  body : List Char
deriving DecidableEq

/-- `resp.headers.get(name, default)`: the header when present, else the
prior value. -/
def headerOr (h prior : Option (List Char)) : Option (List Char) :=
  match h with
  | some v => some v
  | none => prior

/-- `_fetch_if_changed` (lines 74-88) acting on the explicit watcher state
(the Python method mutates `self`): 304 returns no document and leaves the
state alone; an error status (`raise_for_status`, status ≥ 400) raises
before any mutation; otherwise the validators are overwritten from the
response headers (falling back to the prior values) and the body is
returned.  `Except.error` carries the state at the raise point. -/
def fetch_if_changed (s : WatcherState) (r : HttpResponse) :
    Except WatcherState (WatcherState × Option (List Char)) :=
  if r.status = 304 then Except.ok (s, none)
  else if 400 ≤ r.status then Except.error s
  else
    Except.ok ({ s with
                  etag := headerOr r.etag s.etag,
                  lastModified := headerOr r.lastModified s.lastModified },
               some r.body)

/-- Outcome of one `_check_once` call: normal return, or an exception that
escaped to `run_forever` (carrying the state at the raise point, since the
Python object keeps all mutations made before the raise). -/
inductive CycleResult
  | ok (s : WatcherState) (changed : Bool) (events : List (List Char × List Char))
  | errored (s : WatcherState)
deriving DecidableEq

/-- The watcher state after a cycle, whether it returned or raised. -/
def CycleResult.state : CycleResult → WatcherState
  | .ok s _ _ => s
  | .errored s => s

/-- `_check_once` (lines 90-128).  `parsed` is the outcome of
`ET.fromstring` on the fetched document, supplied as an external capability:
`none` means the parser raised. -/
def check_once (s : WatcherState) (r : HttpResponse)
    (parsed : Option (List FeedEntry)) : CycleResult :=
  match fetch_if_changed s r with
  | Except.error sErr => CycleResult.errored sErr
  | Except.ok (s1, none) => CycleResult.ok s1 false []
  | Except.ok (s1, some _) =>
    match parsed with
    | none => CycleResult.errored s1
    | some entries =>
      let p := processChron entries.reverse s1.seenKeys
      CycleResult.ok { s1 with seenKeys := p.seen } p.changed p.events

/-- One external stimulus for an iteration of `run_forever`: either a poll
cycle runs (with its HTTP response and parse outcome), or cancellation is
delivered. -/
inductive LoopEvent
  | cycle (r : HttpResponse) (parsed : Option (List FeedEntry))
  | cancel
deriving DecidableEq

/-- `run_forever` (lines 62-72) over a finite stimulus trace: a `cycle`
event runs `_check_once`; a raised non-cancellation error is caught
(`except Exception`) and the loop continues; either way the loop then
sleeps one poll interval; `cancel` re-raises (`except CancelledError:
raise`) and terminates the loop.  Returns the final state, the number of
poll-interval sleeps performed, and whether the loop terminated (which only
cancellation causes). -/
def runForever : WatcherState → List LoopEvent → WatcherState × Nat × Bool
  | s, [] => (s, 0, false)
  | s, LoopEvent.cancel :: _ => (s, 0, true)
  | s, LoopEvent.cycle r parsed :: rest =>
    let t := runForever (check_once s r parsed).state rest
    (t.1, t.2.1 + 1, t.2.2)

def eA : FeedEntry := ⟨s2l "A", s2l "t", s2l "x", [], []⟩

def eB : FeedEntry := ⟨s2l "B", s2l "t", s2l "x", [], []⟩

def eC : FeedEntry := ⟨s2l "C", s2l "t", s2l "x", [], []⟩

def eEmpty : FeedEntry := ⟨[], [], [], [], []⟩

/-- No position of the list starts a match of the tag regex. -/
def noTagB : List Char → Bool
  | [] => true
  | c :: cs => (if c = '<' then (tagMatch cs).isNone else true) && noTagB cs

/-- No position of the list starts an occurrence of the literal `&nbsp;`. -/
def noNbspB : List Char → Bool
  | [] => true
  | c :: cs => (if c :: cs.take 5 = nbspL then false else true) && noNbspB cs

/-- The head of the list, if any, is not whitespace. -/
def headNotSpace : List Char → Bool
  | [] => true
  | d :: _ => !isSpaceChar d

/-- Whitespace is normalised: every whitespace character is a plain space
and is not followed by another whitespace character. -/
def wsOk : List Char → Bool
  | [] => true
  | c :: cs =>
    (if isSpaceChar c then (if c = ' ' then headNotSpace cs else false) else true)
      && wsOk cs

/-! ### Theorems -/

theorem tagRest_length {l r : List Char} (h : tagRest l = some r) :
    r.length < l.length := by
  induction l with
  | nil => simp [tagRest] at h
  | cons c cs ih =>
    simp only [tagRest] at h
    by_cases hc : c = '>'
    · simp [hc] at h
      simp [← h, List.length_cons]
    · simp [hc] at h
      have := ih h
      simp [List.length_cons]; omega

theorem tagMatch_length {l r : List Char} (h : tagMatch l = some r) :
    r.length < l.length := by
  cases l with
  | nil => simp [tagMatch] at h
  | cons c cs =>
    simp only [tagMatch] at h
    by_cases hc : c = '>'
    · simp [hc] at h
    · simp [hc] at h
      have := tagRest_length h
      simp [List.length_cons]; omega

theorem stripTagsF_irrel :
    ∀ (n : Nat) {m : Nat} (l : List Char), l.length ≤ n → l.length ≤ m →
      stripTagsF n l = stripTagsF m l := by
  intro n
  induction n with
  | zero =>
    intro m l hn _
    have : l = [] := List.length_eq_zero.mp (Nat.le_zero.mp hn)
    subst this
    cases m <;> rfl
  | succ n ih =>
    intro m l hn hm
    cases l with
    | nil => cases m <;> rfl
    | cons c cs =>
      cases m with
      | zero => simp [List.length_cons] at hm
      | succ m =>
        simp only [stripTagsF]
        have hcs : cs.length ≤ n := by simp [List.length_cons] at hn; omega
        have hcs' : cs.length ≤ m := by simp [List.length_cons] at hm; omega
        by_cases hc : c = '<'
        · simp only [hc, if_true]
          cases htm : tagMatch cs with
          | some rest =>
            have hr := tagMatch_length htm
            have h1 := ih (m := m) rest (by omega) (by omega)
            simp [h1]
          | none =>
            have h1 := ih (m := m) cs hcs hcs'
            simp [h1]
        · simp only [hc, if_false]
          have h1 := ih (m := m) cs hcs hcs'
          simp [h1]

theorem stripTags_nil : stripTags [] = [] := rfl

theorem stripTags_cons (c : Char) (cs : List Char) :
    stripTags (c :: cs) =
      if c = '<' then
        match tagMatch cs with
        | some rest => ' ' :: stripTags rest
        | none => '<' :: stripTags cs
      else c :: stripTags cs := by
  show stripTagsF (cs.length + 1) (c :: cs) = _
  simp only [stripTagsF]
  by_cases hc : c = '<'
  · simp only [hc, if_true]
    cases htm : tagMatch cs with
    | some rest =>
      have hr := tagMatch_length htm
      have h1 : stripTagsF cs.length rest = stripTags rest :=
        stripTagsF_irrel cs.length rest (by omega) (Nat.le_refl _)
      simp [h1]
    | none =>
      have h1 : stripTagsF cs.length cs = stripTags cs :=
        stripTagsF_irrel cs.length cs (Nat.le_refl _) (Nat.le_refl _)
      simp [h1]
  · have h1 : stripTagsF cs.length cs = stripTags cs :=
      stripTagsF_irrel cs.length cs (Nat.le_refl _) (Nat.le_refl _)
    simp [hc, h1]

theorem stripNbspF_irrel :
    ∀ (n : Nat) {m : Nat} (l : List Char), l.length ≤ n → l.length ≤ m →
      stripNbspF n l = stripNbspF m l := by
  intro n
  induction n with
  | zero =>
    intro m l hn _
    have : l = [] := List.length_eq_zero.mp (Nat.le_zero.mp hn)
    subst this
    cases m <;> rfl
  | succ n ih =>
    intro m l hn hm
    cases l with
    | nil => cases m <;> rfl
    | cons c cs =>
      cases m with
      | zero => simp [List.length_cons] at hm
      | succ m =>
        simp only [stripNbspF]
        have hcs : cs.length ≤ n := by simp [List.length_cons] at hn; omega
        have hcs' : cs.length ≤ m := by simp [List.length_cons] at hm; omega
        have hdrop : (cs.drop 5).length ≤ cs.length := by
          simp [List.length_drop]
        by_cases hc : c :: cs.take 5 = nbspL
        · simp only [hc, if_true]
          have := ih (m := m) (cs.drop 5) (by omega) (by omega)
          simp [this]
        · simp only [hc, if_false]
          simp [ih cs hcs hcs']

theorem stripNbsp_nil : stripNbsp [] = [] := rfl

theorem stripNbsp_cons (c : Char) (cs : List Char) :
    stripNbsp (c :: cs) =
      if c :: cs.take 5 = nbspL then ' ' :: stripNbsp (cs.drop 5)
      else c :: stripNbsp cs := by
  show stripNbspF (cs.length + 1) (c :: cs) = _
  simp only [stripNbspF]
  have hdrop : (cs.drop 5).length ≤ cs.length := by simp [List.length_drop]
  by_cases hc : c :: cs.take 5 = nbspL
  · have h1 : stripNbspF cs.length (cs.drop 5) = stripNbsp (cs.drop 5) :=
      stripNbspF_irrel cs.length (cs.drop 5) (by omega) (Nat.le_refl _)
    simp [hc, h1]
  · have h1 : stripNbspF cs.length cs = stripNbsp cs :=
      stripNbspF_irrel cs.length cs (Nat.le_refl _) (Nat.le_refl _)
    simp [hc, h1]

theorem length_dropWhile_le (p : Char → Bool) (l : List Char) :
    (l.dropWhile p).length ≤ l.length := by
  conv_rhs => rw [← List.takeWhile_append_dropWhile (p := p) (l := l)]
  simp only [List.length_append]
  omega

theorem collapseWsF_irrel :
    ∀ (n : Nat) {m : Nat} (l : List Char), l.length ≤ n → l.length ≤ m →
      collapseWsF n l = collapseWsF m l := by
  intro n
  induction n with
  | zero =>
    intro m l hn _
    have : l = [] := List.length_eq_zero.mp (Nat.le_zero.mp hn)
    subst this
    cases m <;> rfl
  | succ n ih =>
    intro m l hn hm
    cases l with
    | nil => cases m <;> rfl
    | cons c cs =>
      cases m with
      | zero => simp [List.length_cons] at hm
      | succ m =>
        simp only [collapseWsF]
        have hcs : cs.length ≤ n := by simp [List.length_cons] at hn; omega
        have hcs' : cs.length ≤ m := by simp [List.length_cons] at hm; omega
        have hdrop := length_dropWhile_le isSpaceChar cs
        by_cases hc : isSpaceChar c
        · simp only [hc, if_true]
          have := ih (m := m) (cs.dropWhile isSpaceChar) (by omega) (by omega)
          simp [this]
        · simp only [hc, if_false]
          simp [ih cs hcs hcs']

theorem collapseWs_nil : collapseWs [] = [] := rfl

theorem collapseWs_cons (c : Char) (cs : List Char) :
    collapseWs (c :: cs) =
      if isSpaceChar c then ' ' :: collapseWs (cs.dropWhile isSpaceChar)
      else c :: collapseWs cs := by
  show collapseWsF (cs.length + 1) (c :: cs) = _
  simp only [collapseWsF]
  have hdrop := length_dropWhile_le isSpaceChar cs
  by_cases hc : isSpaceChar c
  · have h1 : collapseWsF cs.length (cs.dropWhile isSpaceChar)
        = collapseWs (cs.dropWhile isSpaceChar) :=
      collapseWsF_irrel cs.length _ (by omega) (Nat.le_refl _)
    simp [hc, h1]
  · have h1 : collapseWsF cs.length cs = collapseWs cs :=
      collapseWsF_irrel cs.length cs (Nat.le_refl _) (Nat.le_refl _)
    simp [hc, h1]

theorem processChron_kept_sublist (l : List FeedEntry) (seen : Finset (List Char)) :
    List.Sublist (processChron l seen).kept l := by
  induction l generalizing seen with
  | nil => simp [processChron]
  | cons e rest ih =>
    by_cases hk : entryKey e ∈ seen
    · simp only [processChron, hk, if_true]
      exact (ih seen).trans (List.sublist_cons_self e rest)
    · simp only [processChron, hk, if_false]
      exact (ih (insert (entryKey e) seen)).cons₂ e

theorem processChron_kept_not_seen (l : List FeedEntry) (seen : Finset (List Char)) :
    ∀ e ∈ (processChron l seen).kept, entryKey e ∉ seen := by
  induction l generalizing seen with
  | nil => simp [processChron]
  | cons e rest ih =>
    by_cases hk : entryKey e ∈ seen
    · simp only [processChron, hk, if_true]
      exact ih seen
    · simp only [processChron, hk, if_false]
      intro x hx
      rcases List.mem_cons.mp hx with h | h
      · subst h; exact hk
      · intro hmem
        exact ih (insert (entryKey e) seen) x h (Finset.mem_insert_of_mem hmem)

theorem processChron_keys_nodup (l : List FeedEntry) (seen : Finset (List Char)) :
    ((processChron l seen).kept.map entryKey).Nodup := by
  induction l generalizing seen with
  | nil => simp [processChron]
  | cons e rest ih =>
    by_cases hk : entryKey e ∈ seen
    · simp only [processChron, hk, if_true]
      exact ih seen
    · simp only [processChron, hk, if_false, List.map_cons, List.nodup_cons]
      refine ⟨?_, ih (insert (entryKey e) seen)⟩
      intro hmem
      rcases List.mem_map.mp hmem with ⟨x, hx, hkey⟩
      exact processChron_kept_not_seen rest (insert (entryKey e) seen) x hx
        (hkey ▸ Finset.mem_insert_self _ _)

theorem processChron_seen_eq (l : List FeedEntry) (seen : Finset (List Char)) :
    (processChron l seen).seen =
      seen ∪ ((processChron l seen).kept.map entryKey).toFinset := by
  induction l generalizing seen with
  | nil => simp [processChron]
  | cons e rest ih =>
    by_cases hk : entryKey e ∈ seen
    · simp only [processChron, hk, if_true]
      exact ih seen
    · simp only [processChron, hk, if_false]
      rw [ih (insert (entryKey e) seen)]
      ext a
      simp only [Finset.mem_union, Finset.mem_insert, List.mem_toFinset,
        List.map_cons, List.mem_cons]
      tauto

theorem processChron_seen_mono (l : List FeedEntry) (seen : Finset (List Char))
    {a : List Char} (h : a ∈ seen) : a ∈ (processChron l seen).seen := by
  rw [processChron_seen_eq]
  exact Finset.mem_union_left _ h

theorem processChron_mem_seen (l : List FeedEntry) (seen : Finset (List Char)) :
    ∀ e ∈ l, entryKey e ∈ (processChron l seen).seen := by
  induction l generalizing seen with
  | nil => simp
  | cons e rest ih =>
    intro x hx
    by_cases hk : entryKey e ∈ seen
    · simp only [processChron, hk, if_true]
      rcases List.mem_cons.mp hx with h | h
      · subst h; exact processChron_seen_mono rest seen hk
      · exact ih seen x h
    · simp only [processChron, hk, if_false]
      rcases List.mem_cons.mp hx with h | h
      · subst h
        exact processChron_seen_mono rest _ (Finset.mem_insert_self _ _)
      · exact ih (insert (entryKey e) seen) x h

theorem runCycles_seen_eq (cycles : List (List FeedEntry)) (seen : Finset (List Char)) :
    (runCycles cycles seen).2 =
      seen ∪ (((runCycles cycles seen).1.flatten.map entryKey).toFinset) := by
  induction cycles generalizing seen with
  | nil => simp [runCycles]
  | cons feed rest ih =>
    simp only [runCycles, List.flatten_cons, List.map_append]
    rw [ih, processChron_seen_eq]
    ext a
    simp only [Finset.mem_union, List.mem_toFinset, List.mem_append]
    tauto

theorem runCycles_flatten_not_seen (cycles : List (List FeedEntry))
    (seen : Finset (List Char)) :
    ∀ e ∈ (runCycles cycles seen).1.flatten, entryKey e ∉ seen := by
  induction cycles generalizing seen with
  | nil => simp [runCycles]
  | cons feed rest ih =>
    simp only [runCycles, List.flatten_cons, List.mem_append]
    intro e he
    rcases he with h | h
    · exact processChron_kept_not_seen _ seen e h
    · intro hmem
      exact ih (processChron feed.reverse seen).seen e h
        (processChron_seen_mono _ seen hmem)

theorem runCycles_keys_nodup (cycles : List (List FeedEntry)) (seen : Finset (List Char)) :
    ((runCycles cycles seen).1.flatten.map entryKey).Nodup := by
  induction cycles generalizing seen with
  | nil => simp [runCycles]
  | cons feed rest ih =>
    simp only [runCycles, List.flatten_cons, List.map_append]
    rw [List.nodup_append]
    refine ⟨processChron_keys_nodup _ seen, ih _, ?_⟩
    intro a ha hb
    rcases List.mem_map.mp ha with ⟨x, hx, hkeyx⟩
    rcases List.mem_map.mp hb with ⟨y, hy, hkeyy⟩
    have hxseen : entryKey x ∈ (processChron feed.reverse seen).seen := by
      rw [processChron_seen_eq]
      exact Finset.mem_union_right _ (List.mem_toFinset.mpr (List.mem_map_of_mem _ hx))
    have := runCycles_flatten_not_seen rest (processChron feed.reverse seen).seen y hy
    exact this (hkeyy ▸ hkeyx ▸ hxseen)

theorem runCycles_input_mem (cycles : List (List FeedEntry)) (seen : Finset (List Char)) :
    ∀ feed ∈ cycles, ∀ e ∈ feed, entryKey e ∈ (runCycles cycles seen).2 := by
  induction cycles generalizing seen with
  | nil => simp
  | cons feed rest ih =>
    intro f hf e he
    rcases List.mem_cons.mp hf with h | h
    · subst h
      have h1 : entryKey e ∈ (processChron f.reverse seen).seen :=
        processChron_mem_seen _ seen e (List.mem_reverse.mpr he)
      simp only [runCycles]
      rw [runCycles_seen_eq]
      exact Finset.mem_union_left _ h1
    · exact ih _ f h e he

theorem countP_le_one_of_nodup_map {l : List FeedEntry} (k : List Char)
    (h : (l.map entryKey).Nodup) :
    l.countP (fun e => decide (entryKey e = k)) ≤ 1 := by
  induction l with
  | nil => simp
  | cons e rest ih =>
    rw [List.map_cons, List.nodup_cons] at h
    rw [List.countP_cons]
    by_cases hk : entryKey e = k
    · have hzero : rest.countP (fun e => decide (entryKey e = k)) = 0 := by
        rw [List.countP_eq_zero]
        intro x hx
        simp only [decide_eq_true_eq]
        intro hkey
        exact h.1 (List.mem_map.mpr ⟨x, hx, hkey ▸ hk ▸ rfl⟩)
      simp [hk, hzero]
    · have : (decide (entryKey e = k)) = false := by simp [hk]
      rw [this]
      simpa using ih h.2

/-- Claim C1: across any sequence of poll cycles started from the empty
seen-key set, at most one entry whose identity key is the empty string is
ever kept (and hence at most one is ever reported); if any cycle's feed
batch holds an empty-key entry, then exactly one such entry is kept over
the whole lifetime and the empty key is in the final seen-key set — the
first one wins, every later one is silently skipped as a duplicate. -/
theorem claim_C1 (cycles : List (List FeedEntry)) :
    (runCycles cycles ∅).1.flatten.countP (fun e => decide (entryKey e = [])) ≤ 1 ∧
    ((∃ feed ∈ cycles, ∃ e ∈ feed, entryKey e = []) →
      (runCycles cycles ∅).1.flatten.countP (fun e => decide (entryKey e = [])) = 1 ∧
      [] ∈ (runCycles cycles ∅).2) := by
  constructor
  · exact countP_le_one_of_nodup_map [] (runCycles_keys_nodup cycles ∅)
  · rintro ⟨feed, hfeed, e, he, hkey⟩
    have hempty : [] ∈ (runCycles cycles ∅).2 :=
      hkey ▸ runCycles_input_mem cycles ∅ feed hfeed e he
    refine ⟨?_, hempty⟩
    have hpos : 0 < (runCycles cycles ∅).1.flatten.countP
        (fun e => decide (entryKey e = [])) := by
      rw [runCycles_seen_eq] at hempty
      rcases Finset.mem_union.mp hempty with h | h
      · simp at h
      · rcases List.mem_map.mp (List.mem_toFinset.mp h) with ⟨x, hx, hkx⟩
        exact List.countP_pos_iff.mpr ⟨x, hx, by simp [hkx]⟩
    have hle := countP_le_one_of_nodup_map [] (runCycles_keys_nodup cycles ∅)
    omega

/-- Witness for C1 at a concrete lifetime: two cycles each delivering the
same all-empty entry; exactly one is kept. -/
theorem claim_C1_witness :
    (runCycles [[eEmpty], [eEmpty]] ∅).1.flatten.countP
        (fun e => decide (entryKey e = [])) = 1 ∧
    [] ∈ (runCycles [[eEmpty], [eEmpty]] ∅).2 :=
  (claim_C1 [[eEmpty], [eEmpty]]).2 ⟨[eEmpty], by decide, eEmpty, by decide, by decide⟩

/-- Claim C3: the entry loop processes each batch in chronological order
(the feed's newest-first order reversed, line 99); every entry whose key is
already seen is skipped, every kept entry's key was unseen, the keys of the
kept entries are added to the seen set, every input entry's key ends up
seen, and the kept entries preserve chronological order (they form a
sublist of the reversed batch).  Concretely, feeding batches with key
sequences [A,B] then [A,C] (chronologically) keeps [A,B] then [C]: A is
never re-reported. -/
theorem claim_C3 :
    (∀ (entries : List FeedEntry) (seen : Finset (List Char)),
      List.Sublist (processChron entries.reverse seen).kept entries.reverse ∧
      (∀ e ∈ (processChron entries.reverse seen).kept, entryKey e ∉ seen) ∧
      (processChron entries.reverse seen).seen =
        seen ∪ (((processChron entries.reverse seen).kept.map entryKey).toFinset) ∧
      (∀ e ∈ entries, entryKey e ∈ (processChron entries.reverse seen).seen)) ∧
    (runCycles [[eB, eA], [eC, eA]] ∅).1 = [[eA, eB], [eC]] := by
  constructor
  · intro entries seen
    refine ⟨processChron_kept_sublist _ seen, processChron_kept_not_seen _ seen,
      processChron_seen_eq _ seen, ?_⟩
    intro e he
    exact processChron_mem_seen _ seen e (List.mem_reverse.mpr he)
  · decide

/-- Witness for C3: the key of an entry of the first batch is in the
seen-key set after that batch is processed. -/
theorem claim_C3_witness : entryKey eB ∈ (processChron [eB, eA].reverse ∅).seen :=
  (claim_C3.1 [eB, eA] ∅).2.2.2 eB (by decide)

/-- Claim C8: for entries with non-empty id and non-empty updated
timestamp, the identity key is `id ++ "|" ++ updated`; two entries with the
same id but different updated timestamps have different keys, so both pass
deduplication (an edited entry re-triggers processing instead of being
deduplicated). -/
theorem claim_C8 (e1 e2 : FeedEntry) (seen : Finset (List Char))
    (h1 : e1.id ≠ []) (h2 : e1.updated ≠ []) (h3 : e2.id = e1.id)
    (h4 : e2.updated ≠ []) (h5 : e2.updated ≠ e1.updated) :
    entryKey e1 = e1.id ++ '|' :: e1.updated ∧
    entryKey e2 ≠ entryKey e1 ∧
    (entryKey e1 ∉ seen → entryKey e2 ∉ seen →
      (processChron [e1] seen).kept = [e1] ∧
      (processChron [e2] (processChron [e1] seen).seen).kept = [e2]) := by
  have hk1 : entryKey e1 = e1.id ++ '|' :: e1.updated := by
    simp [entryKey, h1, h2]
  have hk2 : entryKey e2 = e1.id ++ '|' :: e2.updated := by
    have : e2.id ≠ [] := h3 ▸ h1
    simp [entryKey, this, h4, h3, h1]
  have hne : entryKey e2 ≠ entryKey e1 := by
    rw [hk1, hk2]
    intro h
    have := List.append_cancel_left h
    simp at this
    exact h5 this
  refine ⟨hk1, hne, ?_⟩
  intro hs1 hs2
  have c1 : processChron [e1] seen =
      ⟨[e1], insert (entryKey e1) seen, entryEvent e1, true⟩ := by
    simp [processChron, hs1]
  have hs2' : entryKey e2 ∉ insert (entryKey e1) seen := by
    intro h
    rcases Finset.mem_insert.mp h with h | h
    · exact hne h
    · exact hs2 h
  constructor
  · rw [c1]
  · rw [c1]
    simp [processChron, hs2']

/-- Witness for C8: an entry edited between two cycles (same id `1`,
updated timestamp `t1` then `t2`) is kept in both cycles. -/
theorem claim_C8_witness :
    (processChron [⟨s2l "1", s2l "t1", s2l "x", [], []⟩] ∅).kept
        = [⟨s2l "1", s2l "t1", s2l "x", [], []⟩] ∧
    (processChron [⟨s2l "1", s2l "t2", s2l "x", [], []⟩]
        (processChron [⟨s2l "1", s2l "t1", s2l "x", [], []⟩] ∅).seen).kept
        = [⟨s2l "1", s2l "t2", s2l "x", [], []⟩] :=
  (claim_C8 ⟨s2l "1", s2l "t1", s2l "x", [], []⟩ ⟨s2l "1", s2l "t2", s2l "x", [], []⟩ ∅
    (by decide) (by decide) (by decide) (by decide) (by decide)).2.2
    (by decide) (by decide)

theorem findLabel_first (hay : List Char) :
    ∀ (ps : List (List Char × List Char)) (i : Fin ps.length),
      containsSub hay (ps.get i).1 = true →
      (∀ j : Fin ps.length, (j : ℕ) < (i : ℕ) → containsSub hay (ps.get j).1 = false) →
      findLabel hay ps = some (ps.get i).2 := by
  intro ps
  induction ps with
  | nil => intro i; exact absurd i.isLt (by simp)
  | cons p rest ih =>
    intro i hi hj
    rcases p with ⟨needle, lab⟩
    cases i using Fin.cases with
    | zero =>
      simp only [List.get] at hi
      simp [findLabel, hi]
    | succ k =>
      have h0 : containsSub hay needle = false := by
        have := hj ⟨0, by simp⟩ (by simp)
        simpa using this
      simp only [findLabel, h0, Bool.false_eq_true, if_false]
      have := ih k (by simpa using hi) ?_
      · simpa using this
      · intro j hjk
        have := hj j.succ (by simpa using hjk)
        simpa using this

theorem findLabel_none (hay : List Char) :
    ∀ ps : List (List Char × List Char),
      (∀ p ∈ ps, containsSub hay p.1 = false) → findLabel hay ps = none := by
  intro ps
  induction ps with
  | nil => intro _; rfl
  | cons p rest ih =>
    intro h
    rcases p with ⟨needle, lab⟩
    have h0 : containsSub hay needle = false := h ⟨needle, lab⟩ (List.mem_cons_self _ _)
    simp only [findLabel, h0, Bool.false_eq_true, if_false]
    exact ih (fun q hq => h q (List.mem_cons_of_mem _ hq))

/-- Claim C2: the classifier builds its haystack by joining title and body
with a space and lowercasing; the first pattern-table pair whose needle
occurs in the haystack wins; if no table pair matches but `api` occurs, the
generic label `OpenAI API` is returned; otherwise there is no result; and
every returned message is the trimmed body if non-empty, else the trimmed
title (hence the empty string when both trim to empty). -/
theorem claim_C2 (title body : List Char) :
    (∀ i : Fin PRODUCT_PATTERNS.length,
      containsSub (lowerStr (title ++ ' ' :: body)) (PRODUCT_PATTERNS.get i).1 = true →
      (∀ j : Fin PRODUCT_PATTERNS.length, (j : ℕ) < (i : ℕ) →
        containsSub (lowerStr (title ++ ' ' :: body)) (PRODUCT_PATTERNS.get j).1 = false) →
      detect_product_and_message title body =
        some ((PRODUCT_PATTERNS.get i).2, pyOr (pyStrip body) (pyStrip title))) ∧
    ((∀ p ∈ PRODUCT_PATTERNS, containsSub (lowerStr (title ++ ' ' :: body)) p.1 = false) →
      containsSub (lowerStr (title ++ ' ' :: body)) (s2l "api") = true →
      detect_product_and_message title body =
        some (s2l "OpenAI API", pyOr (pyStrip body) (pyStrip title))) ∧
    ((∀ p ∈ PRODUCT_PATTERNS, containsSub (lowerStr (title ++ ' ' :: body)) p.1 = false) →
      containsSub (lowerStr (title ++ ' ' :: body)) (s2l "api") = false →
      detect_product_and_message title body = none) ∧
    (∀ lab m, detect_product_and_message title body = some (lab, m) →
      m = pyOr (pyStrip body) (pyStrip title)) := by
  refine ⟨?_, ?_, ?_, ?_⟩
  · intro i hi hj
    have h := findLabel_first (lowerStr (title ++ ' ' :: body)) PRODUCT_PATTERNS i hi hj
    simp [detect_product_and_message, h]
  · intro hnone hapi
    have h := findLabel_none (lowerStr (title ++ ' ' :: body)) PRODUCT_PATTERNS hnone
    simp [detect_product_and_message, h, hapi]
  · intro hnone hapi
    have h := findLabel_none (lowerStr (title ++ ' ' :: body)) PRODUCT_PATTERNS hnone
    simp [detect_product_and_message, h, hapi]
  · intro lab m hm
    rcases hfl : findLabel (lowerStr (title ++ ' ' :: body)) PRODUCT_PATTERNS with _ | l
    · simp only [detect_product_and_message, hfl] at hm
      by_cases hapi : containsSub (lowerStr (title ++ ' ' :: body)) (s2l "api") = true
      · simp [hapi] at hm
        exact hm.2.symm
      · simp only [Bool.not_eq_true] at hapi
        simp [hapi] at hm
    · simp only [detect_product_and_message, hfl] at hm
      simp at hm
      exact hm.2.symm

/-- Witness for C2 at the spec's own example: the second table pair
(`chat completions`) is the first match. -/
theorem claim_C2_witness :
    detect_product_and_message (s2l "Chat Completions degraded") (s2l "investigating")
      = some (s2l "OpenAI API - Chat Completions", s2l "investigating") :=
  ((claim_C2 (s2l "Chat Completions degraded") (s2l "investigating")).1
    ⟨1, by decide⟩ (by decide) (by decide)).trans (by decide)

/-- The property stated by claim C6 ("validator state is returned, not
mutated in place"): a `_fetch_if_changed` call that returns normally leaves
the watcher's validators untouched.  The code contradicts this: on a
successful response it overwrites `self.etag` / `self.last_modified`
(lines 86-87) and returns only the body.  This concrete run refutes the
claim: starting with no validators, a 200 response carrying an `ETag`
header leaves the watcher with that etag stored. -/
theorem claim_C6_counterexample :
    fetch_if_changed ⟨none, none, ∅⟩ ⟨200, some (s2l "abc"), none, s2l "x"⟩
      = Except.ok (⟨some (s2l "abc"), none, ∅⟩, some (s2l "x")) ∧
    (⟨some (s2l "abc"), none, ∅⟩ : WatcherState).etag ≠
      (⟨none, none, ∅⟩ : WatcherState).etag := by
  constructor
  · rfl
  · decide

/-- Claim C6 amended: the fetch step has no effect on `seenKeys`; on a 304
it changes nothing and returns no document; on a successful response it
writes the updated validators (response headers, falling back to the prior
values when absent) into the watcher state itself — in-place, rather than
handing them to the caller — and returns the body. -/
theorem claim_C6_amended (s : WatcherState) (r : HttpResponse) :
    (∀ s' d, fetch_if_changed s r = Except.ok (s', d) → s'.seenKeys = s.seenKeys) ∧
    (r.status = 304 → fetch_if_changed s r = Except.ok (s, none)) ∧
    (r.status ≠ 304 → ¬ 400 ≤ r.status →
      fetch_if_changed s r =
        Except.ok ({ s with etag := headerOr r.etag s.etag,
                            lastModified := headerOr r.lastModified s.lastModified },
                   some r.body)) ∧
    (∀ sE, fetch_if_changed s r = Except.error sE → sE = s) := by
  refine ⟨?_, ?_, ?_, ?_⟩
  · intro s' d h
    unfold fetch_if_changed at h
    by_cases h304 : r.status = 304
    · simp [h304] at h
      rw [← h.1]
    · by_cases herr : 400 ≤ r.status
      · simp [h304, herr] at h
      · simp [h304, herr] at h
        rw [← h.1]
  · intro h304
    simp [fetch_if_changed, h304]
  · intro h304 herr
    simp [fetch_if_changed, h304, herr]
  · intro sE h
    unfold fetch_if_changed at h
    by_cases h304 : r.status = 304
    · simp [h304] at h
    · by_cases herr : 400 ≤ r.status
      · simp [h304, herr] at h
        exact h.symm
      · simp [h304, herr] at h

/-- Witness for the amended C6: a successful response with a new etag
leaves `seenKeys` unchanged. -/
theorem claim_C6_amended_witness :
    (⟨some (s2l "abc"), none, ∅⟩ : WatcherState).seenKeys =
      (⟨none, none, ∅⟩ : WatcherState).seenKeys :=
  (claim_C6_amended ⟨none, none, ∅⟩ ⟨200, some (s2l "abc"), none, s2l "x"⟩).1
    ⟨some (s2l "abc"), none, ∅⟩ (some (s2l "x")) (by rfl)

/-- Claim C7: a cycle whose response is 304 returns no document and leaves
the whole watcher state — `seenKeys` and both validators — exactly
unchanged, reports nothing and flags no change. -/
theorem claim_C7 (s : WatcherState) (r : HttpResponse)
    (parsed : Option (List FeedEntry)) (h : r.status = 304) :
    check_once s r parsed = CycleResult.ok s false [] := by
  unfold check_once
  have hf : fetch_if_changed s r = Except.ok (s, none) := by
    simp [fetch_if_changed, h]
  rw [hf]

/-- Witness for C7 at a concrete state and response. -/
theorem claim_C7_witness :
    check_once ⟨some (s2l "e"), some (s2l "lm"), {s2l "k"}⟩
        ⟨304, none, none, []⟩ none
      = CycleResult.ok ⟨some (s2l "e"), some (s2l "lm"), {s2l "k"}⟩ false [] :=
  claim_C7 _ _ none (by decide)

theorem fetch_ok_seenKeys {s : WatcherState} {r : HttpResponse}
    {s' : WatcherState} {d : Option (List Char)}
    (h : fetch_if_changed s r = Except.ok (s', d)) : s'.seenKeys = s.seenKeys := by
  unfold fetch_if_changed at h
  by_cases h304 : r.status = 304
  · simp [h304] at h
    rw [← h.1]
  · by_cases herr : 400 ≤ r.status
    · simp [h304, herr] at h
    · simp [h304, herr] at h
      rw [← h.1]

theorem fetch_error_state {s : WatcherState} {r : HttpResponse} {sE : WatcherState}
    (h : fetch_if_changed s r = Except.error sE) : sE = s := by
  unfold fetch_if_changed at h
  by_cases h304 : r.status = 304
  · simp [h304] at h
  · by_cases herr : 400 ≤ r.status
    · simp [h304, herr] at h
      exact h.symm
    · simp [h304, herr] at h

/-- The property stated by claim C4 ("a key is never added to `seenKeys`
for an entry that was never actually reported"): the code adds an entry's
key (line 114) before classification and prints nothing when classification
fails, so a single unclassifiable entry refutes the claim: its key `1|t` is
added while the cycle reports no event at all. -/
theorem claim_C4_counterexample :
    check_once ⟨none, none, ∅⟩ ⟨200, none, none, s2l "feed"⟩
        (some [⟨s2l "1", s2l "t", s2l "Unrelated outage", s2l "details", []⟩])
      = CycleResult.ok ⟨none, none, {s2l "1|t"}⟩ true [] ∧
    entryKey ⟨s2l "1", s2l "t", s2l "Unrelated outage", s2l "details", []⟩
      ∈ ({s2l "1|t"} : Finset (List Char)) := by
  constructor
  · decide
  · decide

/-- Claim C4 amended: keys are added exactly for the entries that pass
deduplication (per-entry commit), whether or not a notification is emitted
for them; and a cycle whose parse step fails has added no keys to
`seenKeys` at all. -/
theorem claim_C4_amended :
    (∀ (s : WatcherState) (r : HttpResponse),
      (check_once s r none).state.seenKeys = s.seenKeys) ∧
    (∀ (entries : List FeedEntry) (seen : Finset (List Char)),
      (processChron entries seen).seen =
        seen ∪ ((processChron entries seen).kept.map entryKey).toFinset) := by
  constructor
  · intro s r
    unfold check_once
    rcases hf : fetch_if_changed s r with sE | ⟨s1, d⟩
    · simp only [CycleResult.state]
      rw [fetch_error_state hf]
    · cases d with
      | none => simp only [CycleResult.state]; exact fetch_ok_seenKeys hf
      | some t => simp only [CycleResult.state]; exact fetch_ok_seenKeys hf
  · exact fun entries seen => processChron_seen_eq entries seen

/-- Witness for the amended C4: a cycle that fetches a document but fails
to parse it leaves the seen-key set unchanged. -/
theorem claim_C4_amended_witness :
    (check_once ⟨none, none, {s2l "old"}⟩ ⟨200, none, none, s2l "bad xml"⟩
        none).state.seenKeys = ({s2l "old"} : Finset (List Char)) :=
  claim_C4_amended.1 ⟨none, none, {s2l "old"}⟩ ⟨200, none, none, s2l "bad xml"⟩

/-- Claim C5: over any finite stimulus trace, the loop terminates exactly
when a cancellation is delivered (errors raised inside a cycle are caught
and the loop continues), and in a cancellation-free trace every event is
processed with one normal poll-interval sleep per cycle, whether the cycle
succeeded or raised. -/
theorem claim_C5 (s : WatcherState) (evs : List LoopEvent) :
    ((runForever s evs).2.2 = true ↔ LoopEvent.cancel ∈ evs) ∧
    (LoopEvent.cancel ∉ evs → (runForever s evs).2.1 = evs.length) := by
  induction evs generalizing s with
  | nil => simp [runForever]
  | cons ev rest ih =>
    cases ev with
    | cancel => simp [runForever]
    | cycle r parsed =>
      have h := ih (check_once s r parsed).state
      constructor
      · rw [List.mem_cons]
        simp only [runForever]
        rw [h.1]
        constructor
        · exact fun hm => Or.inr hm
        · rintro (hc | hm)
          · cases hc
          · exact hm
      · intro hnm
        rw [List.mem_cons, not_or] at hnm
        simp only [runForever, List.length_cons]
        rw [h.2 hnm.2]

/-- Witness for C5: a trace whose failing cycle is followed by a
cancellation terminates; a cancellation-free two-cycle trace (one cycle
raising on a 500 response, one 304 cycle) sleeps twice and never
terminates. -/
theorem claim_C5_witness :
    (runForever ⟨none, none, ∅⟩
        [LoopEvent.cycle ⟨500, none, none, []⟩ none, LoopEvent.cancel]).2.2 = true ∧
    (runForever ⟨none, none, ∅⟩
        [LoopEvent.cycle ⟨500, none, none, []⟩ none,
         LoopEvent.cycle ⟨304, none, none, []⟩ none]).2.1 = 2 :=
  ⟨(claim_C5 ⟨none, none, ∅⟩ _).1.mpr (by decide),
   (claim_C5 ⟨none, none, ∅⟩ _).2 (by decide)⟩

/-- Claim C10: when an entry passes deduplication its key is added to
`seenKeys` regardless of reporting; the guard `if product and message:`
(line 125) then suppresses the notification whenever the classifier
returned a label with an empty message, and prints exactly one notification
when label and message are both non-empty. -/
theorem claim_C10 (e : FeedEntry) (seen : Finset (List Char))
    (h : entryKey e ∉ seen) :
    entryKey e ∈ (processChron [e] seen).seen ∧
    (∀ p m, detect_product_and_message e.title
        (strip_html (pyOr (pyOr e.summary e.content) e.title)) = some (p, m) →
      m = [] → (processChron [e] seen).events = []) ∧
    (∀ p m, detect_product_and_message e.title
        (strip_html (pyOr (pyOr e.summary e.content) e.title)) = some (p, m) →
      p ≠ [] → m ≠ [] → (processChron [e] seen).events = [(p, m)]) := by
  have hp : processChron [e] seen =
      ⟨[e], insert (entryKey e) seen, entryEvent e ++ [], true⟩ := by
    simp [processChron, h]
  refine ⟨?_, ?_, ?_⟩
  · rw [hp]
    exact Finset.mem_insert_self _ _
  · intro p m hd hm
    rw [hp]
    show entryEvent e ++ [] = []
    rw [entryEvent, hd]
    simp [hm]
  · intro p m hd hpne hmne
    rw [hp]
    show entryEvent e ++ [] = [(p, m)]
    rw [entryEvent, hd]
    simp [hpne, hmne]

/-- Witness for C10: a classifiable entry has its key added and its single
notification emitted. -/
theorem claim_C10_witness :
    entryKey ⟨s2l "1", s2l "t", s2l "Embeddings API issue", s2l "ongoing", []⟩
      ∈ (processChron [⟨s2l "1", s2l "t", s2l "Embeddings API issue", s2l "ongoing", []⟩] ∅).seen ∧
    (processChron [⟨s2l "1", s2l "t", s2l "Embeddings API issue", s2l "ongoing", []⟩] ∅).events
      = [(s2l "OpenAI API - Embeddings", s2l "ongoing")] :=
  ⟨(claim_C10 ⟨s2l "1", s2l "t", s2l "Embeddings API issue", s2l "ongoing", []⟩ ∅
      (by decide)).1,
   (claim_C10 ⟨s2l "1", s2l "t", s2l "Embeddings API issue", s2l "ongoing", []⟩ ∅
      (by decide)).2.2 (s2l "OpenAI API - Embeddings") (s2l "ongoing")
      (by decide) (by decide) (by decide)⟩

theorem listStrongInd {α : Type} {P : List α → Prop}
    (step : ∀ l, (∀ t : List α, t.length < l.length → P t) → P l) (l : List α) :
    P l := by
  have h : ∀ n (l : List α), l.length ≤ n → P l := by
    intro n
    induction n with
    | zero =>
      intro l hl
      exact step l (fun t ht => absurd (Nat.lt_of_lt_of_le ht hl) (Nat.not_lt_zero _))
    | succ n ih =>
      intro l hl
      exact step l (fun t ht => ih t (by omega))
  exact h l.length l (Nat.le_refl _)

theorem tagRest_eq_none_iff (l : List Char) : tagRest l = none ↔ '>' ∉ l := by
  induction l with
  | nil => simp [tagRest]
  | cons c cs ih =>
    by_cases hc : c = '>'
    · simp [tagRest, hc]
    · simp [tagRest, hc, ih, Ne.symm hc]

theorem tagMatch_none_of_not_mem {l : List Char} (h : '>' ∉ l) : tagMatch l = none := by
  cases l with
  | nil => rfl
  | cons c cs =>
    have hc : c ≠ '>' := fun hc => h (hc ▸ List.mem_cons_self _ _)
    have hcs : '>' ∉ cs := fun hm => h (List.mem_cons_of_mem _ hm)
    simp [tagMatch, hc, (tagRest_eq_none_iff cs).mpr hcs]

theorem tagMatch_none_cases {l : List Char} (h : tagMatch l = none) :
    (∃ cs, l = '>' :: cs) ∨ '>' ∉ l := by
  cases l with
  | nil => right; simp
  | cons c cs =>
    by_cases hc : c = '>'
    · left; exact ⟨cs, by rw [hc]⟩
    · right
      simp only [tagMatch, hc, if_false] at h
      have hcs : '>' ∉ cs := (tagRest_eq_none_iff cs).mp h
      simp [hc, hcs, Ne.symm hc]

theorem tagRest_mem {l r : List Char} (h : tagRest l = some r) : ∀ x ∈ r, x ∈ l := by
  induction l with
  | nil => simp [tagRest] at h
  | cons c cs ih =>
    by_cases hc : c = '>'
    · simp [tagRest, hc] at h
      intro x hx
      exact List.mem_cons_of_mem _ (h ▸ hx)
    · simp [tagRest, hc] at h
      intro x hx
      exact List.mem_cons_of_mem _ (ih h x hx)

theorem tagMatch_mem {l r : List Char} (h : tagMatch l = some r) : ∀ x ∈ r, x ∈ l := by
  cases l with
  | nil => simp [tagMatch] at h
  | cons c cs =>
    by_cases hc : c = '>'
    · simp [tagMatch, hc] at h
    · simp [tagMatch, hc] at h
      intro x hx
      exact List.mem_cons_of_mem _ (tagRest_mem h x hx)

theorem noTagB_cons_iff (c : Char) (cs : List Char) :
    noTagB (c :: cs) = true ↔
      (c = '<' → tagMatch cs = none) ∧ noTagB cs = true := by
  by_cases hc : c = '<'
  · simp [noTagB, hc, Option.isNone_iff_eq_none]
  · simp [noTagB, hc]

theorem mem_stripTags : ∀ l : List Char, ∀ x ∈ stripTags l, x = ' ' ∨ x ∈ l := by
  refine listStrongInd (fun l ih => ?_)
  cases l with
  | nil => simp [stripTags_nil]
  | cons c cs =>
    rw [stripTags_cons]
    by_cases hc : c = '<'
    · simp only [hc, if_true]
      cases htm : tagMatch cs with
      | some rest =>
        intro x hx
        rcases List.mem_cons.mp hx with h | h
        · left; exact h
        · rcases ih rest (by have := tagMatch_length htm; simp [List.length_cons]; omega)
            x h with h' | h'
          · left; exact h'
          · right; exact List.mem_cons_of_mem _ (tagMatch_mem htm x h')
      | none =>
        intro x hx
        rcases List.mem_cons.mp hx with h | h
        · right; rw [h]; exact List.mem_cons_self _ _
        · rcases ih cs (by simp [List.length_cons]) x h with h' | h'
          · left; exact h'
          · right; exact List.mem_cons_of_mem _ h'
    · simp only [hc, if_false]
      intro x hx
      rcases List.mem_cons.mp hx with h | h
      · right; rw [h]; exact List.mem_cons_self _ _
      · rcases ih cs (by simp [List.length_cons]) x h with h' | h'
        · left; exact h'
        · right; exact List.mem_cons_of_mem _ h'

theorem stripTags_eq_self_of_noTag : ∀ l : List Char, noTagB l = true → stripTags l = l := by
  refine listStrongInd (fun l ih => ?_)
  cases l with
  | nil => intro _; exact stripTags_nil
  | cons c cs =>
    intro h
    rcases (noTagB_cons_iff c cs).mp h with ⟨h1, h2⟩
    rw [stripTags_cons]
    by_cases hc : c = '<'
    · simp only [hc, if_true, h1 hc]
      rw [ih cs (by simp [List.length_cons]) h2]
    · simp only [hc, if_false]
      rw [ih cs (by simp [List.length_cons]) h2]

theorem tagMatch_none_stripTags {l : List Char} (h : tagMatch l = none) :
    tagMatch (stripTags l) = none := by
  rcases tagMatch_none_cases h with ⟨cs, rfl⟩ | hmem
  · rw [stripTags_cons]
    simp only [show ('>' : Char) ≠ '<' by decide, if_false]
    rfl
  · apply tagMatch_none_of_not_mem
    intro hx
    rcases mem_stripTags l '>' hx with h' | h'
    · exact absurd h' (by decide)
    · exact hmem h'

theorem noTagB_stripTags : ∀ l : List Char, noTagB (stripTags l) = true := by
  refine listStrongInd (fun l ih => ?_)
  cases l with
  | nil => simp [stripTags_nil, noTagB]
  | cons c cs =>
    rw [stripTags_cons]
    by_cases hc : c = '<'
    · simp only [hc, if_true]
      cases htm : tagMatch cs with
      | some rest =>
        rw [noTagB_cons_iff]
        exact ⟨fun h => absurd h (by decide),
          ih rest (by have := tagMatch_length htm; simp [List.length_cons]; omega)⟩
      | none =>
        rw [noTagB_cons_iff]
        exact ⟨fun _ => tagMatch_none_stripTags htm, ih cs (by simp [List.length_cons])⟩
    · simp only [hc, if_false]
      rw [noTagB_cons_iff]
      exact ⟨fun h => absurd h hc, ih cs (by simp [List.length_cons])⟩

theorem noNbspB_cons_iff (c : Char) (cs : List Char) :
    noNbspB (c :: cs) = true ↔ c :: cs.take 5 ≠ nbspL ∧ noNbspB cs = true := by
  by_cases hc : c :: cs.take 5 = nbspL
  · simp [noNbspB, hc]
  · simp [noNbspB, hc]

theorem take5_eq_cons {l : List Char} {a b c d e : Char}
    (h : l.take 5 = [a, b, c, d, e]) :
    ∃ t, l = a :: b :: c :: d :: e :: t := by
  rcases l with _ | ⟨x1, _ | ⟨x2, _ | ⟨x3, _ | ⟨x4, _ | ⟨x5, t⟩⟩⟩⟩⟩ <;>
    simp [List.take] at h
  obtain ⟨h1, h2, h3, h4, h5⟩ := h
  subst h1; subst h2; subst h3; subst h4; subst h5
  exact ⟨t, rfl⟩

theorem stripNbsp_eq_self_of_noNbsp :
    ∀ l : List Char, noNbspB l = true → stripNbsp l = l := by
  refine listStrongInd (fun l ih => ?_)
  cases l with
  | nil => intro _; exact stripNbsp_nil
  | cons c cs =>
    intro h
    rcases (noNbspB_cons_iff c cs).mp h with ⟨h1, h2⟩
    rw [stripNbsp_cons]
    simp only [h1, if_false]
    rw [ih cs (by simp [List.length_cons]) h2]

theorem stripNbsp_cons_inv {l : List Char} {d : Char} {r : List Char}
    (h : stripNbsp l = d :: r) (hd : d ≠ ' ') :
    ∃ t, l = d :: t ∧ r = stripNbsp t := by
  cases l with
  | nil => simp [stripNbsp_nil] at h
  | cons c cs =>
    rw [stripNbsp_cons] at h
    by_cases hc : c :: cs.take 5 = nbspL
    · simp only [hc, if_true] at h
      exact absurd (List.cons.injEq _ _ _ _ ▸ h).1.symm hd
    · simp only [hc, if_false] at h
      obtain ⟨h1, h2⟩ := List.cons.injEq _ _ _ _ ▸ h
      exact ⟨cs, by rw [h1], h2.symm⟩

theorem mem_stripNbsp : ∀ l : List Char, ∀ x ∈ stripNbsp l, x = ' ' ∨ x ∈ l := by
  refine listStrongInd (fun l ih => ?_)
  cases l with
  | nil => simp [stripNbsp_nil]
  | cons c cs =>
    rw [stripNbsp_cons]
    by_cases hc : c :: cs.take 5 = nbspL
    · simp only [hc, if_true]
      intro x hx
      rcases List.mem_cons.mp hx with h | h
      · left; exact h
      · rcases ih (cs.drop 5)
          (by have : (cs.drop 5).length ≤ cs.length := by simp [List.length_drop]
              simp [List.length_cons]; omega) x h with h' | h'
        · left; exact h'
        · right; exact List.mem_cons_of_mem _ (List.drop_subset 5 cs h')
    · simp only [hc, if_false]
      intro x hx
      rcases List.mem_cons.mp hx with h | h
      · right; rw [h]; exact List.mem_cons_self _ _
      · rcases ih cs (by simp [List.length_cons]) x h with h' | h'
        · left; exact h'
        · right; exact List.mem_cons_of_mem _ h'

theorem noNbspB_stripNbsp : ∀ l : List Char, noNbspB (stripNbsp l) = true := by
  refine listStrongInd (fun l ih => ?_)
  cases l with
  | nil => simp [stripNbsp_nil, noNbspB]
  | cons c cs =>
    rw [stripNbsp_cons]
    by_cases hc : c :: cs.take 5 = nbspL
    · simp only [hc, if_true]
      rw [noNbspB_cons_iff]
      refine ⟨?_, ih (cs.drop 5)
        (by have : (cs.drop 5).length ≤ cs.length := by simp [List.length_drop]
            simp [List.length_cons]; omega)⟩
      intro habs
      have : (' ' : Char) = '&' := (List.cons.injEq _ _ _ _ ▸ habs).1
      exact absurd this (by decide)
    · simp only [hc, if_false]
      rw [noNbspB_cons_iff]
      refine ⟨?_, ih cs (by simp [List.length_cons])⟩
      intro habs
      obtain ⟨hcamp, htake⟩ := List.cons.injEq _ _ _ _ ▸ habs
      obtain ⟨t, hst⟩ := take5_eq_cons htake
      obtain ⟨t1, ht1, hr1⟩ := stripNbsp_cons_inv hst (by decide)
      obtain ⟨t2, ht2, hr2⟩ := stripNbsp_cons_inv hr1.symm (by decide)
      obtain ⟨t3, ht3, hr3⟩ := stripNbsp_cons_inv hr2.symm (by decide)
      obtain ⟨t4, ht4, hr4⟩ := stripNbsp_cons_inv hr3.symm (by decide)
      obtain ⟨t5, ht5, _⟩ := stripNbsp_cons_inv hr4.symm (by decide)
      apply hc
      rw [hcamp, ht1, ht2, ht3, ht4, ht5]
      simp [List.take, nbspL]

theorem wsOk_cons_iff (c : Char) (cs : List Char) :
    wsOk (c :: cs) = true ↔
      (isSpaceChar c = true → c = ' ' ∧ headNotSpace cs = true) ∧ wsOk cs = true := by
  by_cases hc : isSpaceChar c
  · by_cases hsp : c = ' '
    · subst hsp
      simp [wsOk, hc, Bool.and_eq_true]
    · simp [wsOk, hc, hsp, Bool.and_eq_true]
  · simp [wsOk, hc, Bool.and_eq_true]

theorem dropWhile_eq_self_of_headNotSpace {l : List Char}
    (h : headNotSpace l = true) : l.dropWhile isSpaceChar = l := by
  cases l with
  | nil => rfl
  | cons d t =>
    have : isSpaceChar d = false := by
      simp [headNotSpace] at h
      exact h
    simp [List.dropWhile_cons, this]

theorem headNotSpace_dropWhile (l : List Char) :
    headNotSpace (l.dropWhile isSpaceChar) = true := by
  induction l with
  | nil => rfl
  | cons c cs ih =>
    by_cases hc : isSpaceChar c
    · simp [List.dropWhile_cons, hc, ih]
    · simp [List.dropWhile_cons, hc, headNotSpace]

theorem headNotSpace_collapseWs {l : List Char} (h : headNotSpace l = true) :
    headNotSpace (collapseWs l) = true := by
  cases l with
  | nil => simp [collapseWs_nil, headNotSpace]
  | cons c cs =>
    have hc : isSpaceChar c = false := by
      simp [headNotSpace] at h
      exact h
    rw [collapseWs_cons]
    simp [hc, headNotSpace]

theorem mem_collapseWs : ∀ l : List Char, ∀ x ∈ collapseWs l, x = ' ' ∨ x ∈ l := by
  refine listStrongInd (fun l ih => ?_)
  cases l with
  | nil => simp [collapseWs_nil]
  | cons c cs =>
    rw [collapseWs_cons]
    by_cases hc : isSpaceChar c
    · simp only [hc, if_true]
      intro x hx
      rcases List.mem_cons.mp hx with h | h
      · left; exact h
      · rcases ih (cs.dropWhile isSpaceChar)
          (by have := length_dropWhile_le isSpaceChar cs
              simp [List.length_cons]; omega) x h with h' | h'
        · left; exact h'
        · right
          exact List.mem_cons_of_mem _ (List.dropWhile_subset isSpaceChar h')
    · simp only [hc, if_false]
      intro x hx
      rcases List.mem_cons.mp hx with h | h
      · right; rw [h]; exact List.mem_cons_self _ _
      · rcases ih cs (by simp [List.length_cons]) x h with h' | h'
        · left; exact h'
        · right; exact List.mem_cons_of_mem _ h'

theorem wsOk_collapseWs : ∀ l : List Char, wsOk (collapseWs l) = true := by
  refine listStrongInd (fun l ih => ?_)
  cases l with
  | nil => simp [collapseWs_nil, wsOk]
  | cons c cs =>
    rw [collapseWs_cons]
    by_cases hc : isSpaceChar c
    · simp only [hc, if_true]
      rw [wsOk_cons_iff]
      refine ⟨fun _ => ⟨rfl, ?_⟩, ih (cs.dropWhile isSpaceChar)
        (by have := length_dropWhile_le isSpaceChar cs
            simp [List.length_cons]; omega)⟩
      exact headNotSpace_collapseWs (headNotSpace_dropWhile cs)
    · simp only [hc, Bool.false_eq_true, if_false]
      rw [wsOk_cons_iff]
      refine ⟨fun habs => absurd habs (by simp [hc]), ih cs (by simp [List.length_cons])⟩

theorem collapseWs_eq_self_of_wsOk :
    ∀ l : List Char, wsOk l = true → collapseWs l = l := by
  refine listStrongInd (fun l ih => ?_)
  cases l with
  | nil => intro _; exact collapseWs_nil
  | cons c cs =>
    intro h
    rcases (wsOk_cons_iff c cs).mp h with ⟨h1, h2⟩
    rw [collapseWs_cons]
    by_cases hc : isSpaceChar c
    · rcases h1 hc with ⟨hsp, hhead⟩
      simp only [hc, if_true]
      rw [dropWhile_eq_self_of_headNotSpace hhead,
        ih cs (by simp [List.length_cons]) h2, hsp]
    · simp only [hc, Bool.false_eq_true, if_false]
      rw [ih cs (by simp [List.length_cons]) h2]

theorem collapseWs_cons_inv {l : List Char} {d : Char} {r : List Char}
    (h : collapseWs l = d :: r) (hd : isSpaceChar d = false) :
    ∃ t, l = d :: t ∧ r = collapseWs t := by
  cases l with
  | nil => simp [collapseWs_nil] at h
  | cons c cs =>
    rw [collapseWs_cons] at h
    by_cases hc : isSpaceChar c
    · simp only [hc, if_true] at h
      have : d = ' ' := (List.cons.injEq _ _ _ _ ▸ h).1.symm
      rw [this] at hd
      exact absurd hd (by decide)
    · simp only [hc, if_false] at h
      obtain ⟨h1, h2⟩ := List.cons.injEq _ _ _ _ ▸ h
      exact ⟨cs, by rw [h1], h2.symm⟩

theorem tagRest_none_append {r b : List Char} (h : tagRest (r ++ b) = none) :
    tagRest r = none := by
  rw [tagRest_eq_none_iff] at h ⊢
  exact fun hm => h (List.mem_append_left b hm)

theorem tagMatch_none_append {r b : List Char} (h : tagMatch (r ++ b) = none) :
    tagMatch r = none := by
  cases r with
  | nil => rfl
  | cons c t =>
    by_cases hc : c = '>'
    · simp [tagMatch, hc]
    · rw [List.cons_append] at h
      simp only [tagMatch, hc, if_false] at h ⊢
      exact tagRest_none_append h

theorem noTagB_append_left {a b : List Char} (h : noTagB (a ++ b) = true) :
    noTagB a = true := by
  induction a with
  | nil => rfl
  | cons c t ih =>
    rw [List.cons_append] at h
    rcases (noTagB_cons_iff _ _).mp h with ⟨h1, h2⟩
    rw [noTagB_cons_iff]
    exact ⟨fun hc => tagMatch_none_append (h1 hc), ih h2⟩

theorem noTagB_append_right {a b : List Char} (h : noTagB (a ++ b) = true) :
    noTagB b = true := by
  induction a with
  | nil => exact h
  | cons c t ih =>
    rw [List.cons_append] at h
    exact ih ((noTagB_cons_iff _ _).mp h).2

theorem noNbspB_append_left {a b : List Char} (h : noNbspB (a ++ b) = true) :
    noNbspB a = true := by
  induction a with
  | nil => rfl
  | cons c t ih =>
    rw [List.cons_append] at h
    rcases (noNbspB_cons_iff _ _).mp h with ⟨h1, h2⟩
    rw [noNbspB_cons_iff]
    refine ⟨?_, ih h2⟩
    intro habs
    obtain ⟨hcamp, htake⟩ := List.cons.injEq _ _ _ _ ▸ habs
    obtain ⟨u, hu⟩ := take5_eq_cons htake
    apply h1
    rw [hcamp, hu]
    simp [List.take, nbspL]

theorem noNbspB_append_right {a b : List Char} (h : noNbspB (a ++ b) = true) :
    noNbspB b = true := by
  induction a with
  | nil => exact h
  | cons c t ih =>
    rw [List.cons_append] at h
    exact ih ((noNbspB_cons_iff _ _).mp h).2

theorem headNotSpace_append_left {a b : List Char} (h : headNotSpace (a ++ b) = true) :
    headNotSpace a = true := by
  cases a with
  | nil => rfl
  | cons d t => exact h

theorem wsOk_append_left {a b : List Char} (h : wsOk (a ++ b) = true) :
    wsOk a = true := by
  induction a with
  | nil => rfl
  | cons c t ih =>
    rw [List.cons_append] at h
    rcases (wsOk_cons_iff _ _).mp h with ⟨h1, h2⟩
    rw [wsOk_cons_iff]
    refine ⟨?_, ih h2⟩
    intro hc
    rcases h1 hc with ⟨hsp, hhead⟩
    exact ⟨hsp, headNotSpace_append_left hhead⟩

theorem wsOk_append_right {a b : List Char} (h : wsOk (a ++ b) = true) :
    wsOk b = true := by
  induction a with
  | nil => exact h
  | cons c t ih =>
    rw [List.cons_append] at h
    exact ih ((wsOk_cons_iff _ _).mp h).2

theorem tagMatch_none_stripNbsp {l : List Char} (h : tagMatch l = none) :
    tagMatch (stripNbsp l) = none := by
  rcases tagMatch_none_cases h with ⟨cs, rfl⟩ | hmem
  · rw [stripNbsp_cons]
    have hne : ('>' :: cs.take 5) ≠ nbspL := by
      intro habs
      exact absurd (List.cons.injEq _ _ _ _ ▸ habs).1 (by decide)
    simp only [hne, if_false]
    simp [tagMatch]
  · refine tagMatch_none_of_not_mem (fun hx => ?_)
    rcases mem_stripNbsp l '>' hx with h' | h'
    · exact absurd h' (by decide)
    · exact hmem h'

theorem tagMatch_none_collapseWs {l : List Char} (h : tagMatch l = none) :
    tagMatch (collapseWs l) = none := by
  rcases tagMatch_none_cases h with ⟨cs, rfl⟩ | hmem
  · rw [collapseWs_cons]
    have hns : isSpaceChar '>' = false := by decide
    simp only [hns, Bool.false_eq_true, if_false]
    simp [tagMatch]
  · refine tagMatch_none_of_not_mem (fun hx => ?_)
    rcases mem_collapseWs l '>' hx with h' | h'
    · exact absurd h' (by decide)
    · exact hmem h'

theorem noTagB_drop5 {cs : List Char} (h : noTagB cs = true) :
    noTagB (cs.drop 5) = true := by
  have h2 : noTagB (cs.take 5 ++ cs.drop 5) = true := by
    rw [List.take_append_drop]; exact h
  exact noTagB_append_right h2

theorem noTagB_dropWhileWs {cs : List Char} (h : noTagB cs = true) :
    noTagB (cs.dropWhile isSpaceChar) = true := by
  have h2 : noTagB (cs.takeWhile isSpaceChar ++ cs.dropWhile isSpaceChar) = true := by
    rw [List.takeWhile_append_dropWhile]; exact h
  exact noTagB_append_right h2

theorem noTagB_stripNbsp_pres :
    ∀ l : List Char, noTagB l = true → noTagB (stripNbsp l) = true := by
  refine listStrongInd (fun l ih => ?_)
  cases l with
  | nil => intro _; rfl
  | cons c cs =>
    intro h
    rcases (noTagB_cons_iff c cs).mp h with ⟨h1, h2⟩
    rw [stripNbsp_cons]
    by_cases hc : c :: cs.take 5 = nbspL
    · simp only [hc, if_true]
      rw [noTagB_cons_iff]
      refine ⟨fun habs => absurd habs (by decide), ?_⟩
      refine ih (cs.drop 5) ?_ (noTagB_drop5 h2)
      have : (cs.drop 5).length ≤ cs.length := by simp [List.length_drop]
      simp [List.length_cons]; omega
    · simp only [hc, if_false]
      rw [noTagB_cons_iff]
      exact ⟨fun hceq => tagMatch_none_stripNbsp (h1 hceq),
        ih cs (by simp [List.length_cons]) h2⟩

theorem noTagB_collapseWs_pres :
    ∀ l : List Char, noTagB l = true → noTagB (collapseWs l) = true := by
  refine listStrongInd (fun l ih => ?_)
  cases l with
  | nil => intro _; rfl
  | cons c cs =>
    intro h
    rcases (noTagB_cons_iff c cs).mp h with ⟨h1, h2⟩
    rw [collapseWs_cons]
    by_cases hc : isSpaceChar c
    · simp only [hc, if_true]
      rw [noTagB_cons_iff]
      refine ⟨fun habs => absurd habs (by decide), ?_⟩
      refine ih (cs.dropWhile isSpaceChar) ?_ (noTagB_dropWhileWs h2)
      have := length_dropWhile_le isSpaceChar cs
      simp [List.length_cons]; omega
    · simp only [hc, Bool.false_eq_true, if_false]
      rw [noTagB_cons_iff]
      exact ⟨fun hceq => tagMatch_none_collapseWs (h1 hceq),
        ih cs (by simp [List.length_cons]) h2⟩

theorem noNbspB_dropWhileWs {cs : List Char} (h : noNbspB cs = true) :
    noNbspB (cs.dropWhile isSpaceChar) = true := by
  have h2 : noNbspB (cs.takeWhile isSpaceChar ++ cs.dropWhile isSpaceChar) = true := by
    rw [List.takeWhile_append_dropWhile]; exact h
  exact noNbspB_append_right h2

theorem noNbspB_collapseWs_pres :
    ∀ l : List Char, noNbspB l = true → noNbspB (collapseWs l) = true := by
  refine listStrongInd (fun l ih => ?_)
  cases l with
  | nil => intro _; rfl
  | cons c cs =>
    intro h
    rcases (noNbspB_cons_iff c cs).mp h with ⟨h1, h2⟩
    rw [collapseWs_cons]
    by_cases hc : isSpaceChar c
    · simp only [hc, if_true]
      rw [noNbspB_cons_iff]
      refine ⟨?_, ?_⟩
      · intro habs
        exact absurd (List.cons.injEq _ _ _ _ ▸ habs).1 (by decide)
      · refine ih (cs.dropWhile isSpaceChar) ?_ (noNbspB_dropWhileWs h2)
        have := length_dropWhile_le isSpaceChar cs
        simp [List.length_cons]; omega
    · simp only [hc, Bool.false_eq_true, if_false]
      rw [noNbspB_cons_iff]
      refine ⟨?_, ih cs (by simp [List.length_cons]) h2⟩
      intro habs
      obtain ⟨hcamp, htake⟩ := List.cons.injEq _ _ _ _ ▸ habs
      obtain ⟨t, hst⟩ := take5_eq_cons htake
      obtain ⟨t1, ht1, hr1⟩ := collapseWs_cons_inv hst (by decide)
      obtain ⟨t2, ht2, hr2⟩ := collapseWs_cons_inv hr1.symm (by decide)
      obtain ⟨t3, ht3, hr3⟩ := collapseWs_cons_inv hr2.symm (by decide)
      obtain ⟨t4, ht4, hr4⟩ := collapseWs_cons_inv hr3.symm (by decide)
      obtain ⟨t5, ht5, _⟩ := collapseWs_cons_inv hr4.symm (by decide)
      apply h1
      rw [hcamp, ht1, ht2, ht3, ht4, ht5]
      simp [List.take, nbspL]

theorem rstrip_decomp (x : List Char) :
    x = (x.reverse.dropWhile isSpaceChar).reverse ++
        (x.reverse.takeWhile isSpaceChar).reverse := by
  conv_lhs => rw [← List.reverse_reverse x,
    ← List.takeWhile_append_dropWhile (p := isSpaceChar) (l := x.reverse)]
  rw [List.reverse_append]

theorem pyStrip_decomp (l : List Char) : ∃ a b, l = a ++ (pyStrip l ++ b) := by
  refine ⟨l.takeWhile isSpaceChar,
    ((l.dropWhile isSpaceChar).reverse.takeWhile isSpaceChar).reverse, ?_⟩
  conv_lhs => rw [← List.takeWhile_append_dropWhile (p := isSpaceChar) (l := l)]
  congr 1
  exact rstrip_decomp (l.dropWhile isSpaceChar)

theorem headNotSpace_rstrip {x : List Char} (h : headNotSpace x = true) :
    headNotSpace ((x.reverse.dropWhile isSpaceChar).reverse) = true := by
  cases hx : (x.reverse.dropWhile isSpaceChar).reverse with
  | nil => rfl
  | cons d r =>
    have hdec := rstrip_decomp x
    rw [hx, List.cons_append] at hdec
    cases x with
    | nil => simp at hdec
    | cons c cs =>
      have hcd : c = d := (List.cons.injEq _ _ _ _ ▸ hdec).1
      simp only [headNotSpace] at h ⊢
      rw [← hcd]
      exact h

theorem pyStrip_head (l : List Char) : headNotSpace (pyStrip l) = true :=
  headNotSpace_rstrip (headNotSpace_dropWhile l)

theorem pyStrip_idem (l : List Char) : pyStrip (pyStrip l) = pyStrip l := by
  have h1 : (pyStrip l).dropWhile isSpaceChar = pyStrip l :=
    dropWhile_eq_self_of_headNotSpace (pyStrip_head l)
  show (((pyStrip l).dropWhile isSpaceChar).reverse.dropWhile isSpaceChar).reverse
      = pyStrip l
  rw [h1]
  have h2 : (pyStrip l).reverse = (l.dropWhile isSpaceChar).reverse.dropWhile isSpaceChar := by
    show (((l.dropWhile isSpaceChar).reverse.dropWhile isSpaceChar).reverse).reverse = _
    rw [List.reverse_reverse]
  rw [h2, dropWhile_eq_self_of_headNotSpace (headNotSpace_dropWhile _)]
  rfl

theorem noTagB_pyStrip {l : List Char} (h : noTagB l = true) :
    noTagB (pyStrip l) = true := by
  obtain ⟨a, b, hd⟩ := pyStrip_decomp l
  have h2 : noTagB (a ++ (pyStrip l ++ b)) = true := by rw [← hd]; exact h
  exact noTagB_append_left (noTagB_append_right h2)

theorem noNbspB_pyStrip {l : List Char} (h : noNbspB l = true) :
    noNbspB (pyStrip l) = true := by
  obtain ⟨a, b, hd⟩ := pyStrip_decomp l
  have h2 : noNbspB (a ++ (pyStrip l ++ b)) = true := by rw [← hd]; exact h
  exact noNbspB_append_left (noNbspB_append_right h2)

theorem wsOk_pyStrip {l : List Char} (h : wsOk l = true) :
    wsOk (pyStrip l) = true := by
  obtain ⟨a, b, hd⟩ := pyStrip_decomp l
  have h2 : wsOk (a ++ (pyStrip l ++ b)) = true := by rw [← hd]; exact h
  exact wsOk_append_left (wsOk_append_right h2)

theorem strip_html_idem (x : List Char) :
    strip_html (strip_html x) = strip_html x := by
  have hTag : noTagB (strip_html x) = true :=
    noTagB_pyStrip (noTagB_collapseWs_pres _
      (noTagB_stripNbsp_pres _ (noTagB_stripTags _)))
  have hNbsp : noNbspB (strip_html x) = true :=
    noNbspB_pyStrip (noNbspB_collapseWs_pres _ (noNbspB_stripNbsp _))
  have hWs : wsOk (strip_html x) = true :=
    wsOk_pyStrip (wsOk_collapseWs _)
  show pyStrip (collapseWs (stripNbsp (stripTags (strip_html x)))) = strip_html x
  rw [stripTags_eq_self_of_noTag _ hTag, stripNbsp_eq_self_of_noNbsp _ hNbsp,
    collapseWs_eq_self_of_wsOk _ hWs]
  exact pyStrip_idem _

/-- Claim C9: the text normaliser is idempotent — applying `strip_html`
twice gives the same result as applying it once, for every input — and on
the concrete input `<b>Hi</b>&nbsp;there` it returns `Hi there`. -/
theorem claim_C9 (x : List Char) :
    strip_html (strip_html x) = strip_html x ∧
    strip_html (s2l "<b>Hi</b>&nbsp;there") = s2l "Hi there" :=
  ⟨strip_html_idem x, by decide⟩
